import Mathlib

/-!
# Verification of the routetype route codec

A shallow embedding of the `routetype` crate: the raw lexer/renderer
(`raw.rs`), the normalizer (`normalize.rs`), the query map and `PlainRoute`
(`lib.rs`), and an interpreter for the route templates produced by the
derive macro (`routetype-derive/src/route_parse.rs`).

Rust strings are modelled as lists of Unicode scalar values (`List Nat`).
Byte streams (UTF-8, percent encoding) are also `List Nat` with values
below 256.
-/

/-- A Rust string, as its list of Unicode scalar values. -/
abbrev Str := List Nat

/-- A query pair: key and optional value, mirroring `QueryPair` in lib.rs. -/
abbrev QP := Str × Option Str

/-- Convert a Lean string literal to the model representation. -/
def strLit (s : String) : Str := s.data.map Char.toNat

/-- A scalar value is valid Unicode: below 0x110000 and not a surrogate. -/
def ValidScalar (n : Nat) : Prop := n < 0x110000 ∧ ¬(0xD800 ≤ n ∧ n < 0xE000)

instance (n : Nat) : Decidable (ValidScalar n) := by
  unfold ValidScalar; infer_instance

/-- Every scalar of the string is valid Unicode. -/
def ValidStr (s : Str) : Prop := ∀ n ∈ s, ValidScalar n

instance (s : Str) : Decidable (ValidStr s) := by
  unfold ValidStr; infer_instance

/-- UTF-8 encoding of one scalar value (1 to 4 bytes). -/
def utf8c (n : Nat) : List Nat :=
  if n < 0x80 then [n]
  else if n < 0x800 then [0xC0 + n / 0x40, 0x80 + n % 0x40]
  else if n < 0x10000 then
    [0xE0 + n / 0x1000, 0x80 + n / 0x40 % 0x40, 0x80 + n % 0x40]
  else
    [0xF0 + n / 0x40000, 0x80 + n / 0x1000 % 0x40, 0x80 + n / 0x40 % 0x40,
      0x80 + n % 0x40]

/-- UTF-8 encoding of a whole string. -/
def utf8s (s : Str) : List Nat := s.flatMap utf8c

/-- A UTF-8 continuation byte: in the range 0x80 to 0xBF. -/
def isCont (b : Nat) : Bool := 0x80 ≤ b && b < 0xC0

/-- Modelled from the spec: one step of permissive (lossy) UTF-8 decoding as
performed by the external percent-encoding crate (decode_utf8_lossy).
Given the lead byte and the remaining bytes, produce the decoded scalar
(or U+FFFD on malformed input) and the bytes still to decode. -/
def utf8dStep (b : Nat) (rest : List Nat) : Nat × List Nat :=
  if b < 0x80 then (b, rest)
  else if b < 0xE0 then
    match rest with
    | c1 :: r1 =>
      let n := (b - 0xC0) * 0x40 + (c1 - 0x80)
      if 0xC0 ≤ b && isCont c1 && 0x80 ≤ n then (n, r1)
      else (0xFFFD, c1 :: r1)
    | [] => (0xFFFD, [])
  else if b < 0xF0 then
    match rest with
    | c1 :: c2 :: r2 =>
      let n := (b - 0xE0) * 0x1000 + (c1 - 0x80) * 0x40 + (c2 - 0x80)
      if isCont c1 && isCont c2 && 0x800 ≤ n && !(0xD800 ≤ n && n < 0xE000)
        then (n, r2)
        else (0xFFFD, rest)
    | _ => (0xFFFD, rest)
  else if b < 0xF8 then
    match rest with
    | c1 :: c2 :: c3 :: r3 =>
      let n := (b - 0xF0) * 0x40000 + (c1 - 0x80) * 0x1000 +
        (c2 - 0x80) * 0x40 + (c3 - 0x80)
      if isCont c1 && isCont c2 && isCont c3 && 0x10000 ≤ n && n < 0x110000
        then (n, r3)
        else (0xFFFD, rest)
    | _ => (0xFFFD, rest)
  else (0xFFFD, rest)

/-- Fuelled driver for the lossy UTF-8 decoder; each step consumes at least
the lead byte, so fuel equal to the list length always suffices. -/
def utf8dF : Nat → List Nat → List Nat
  | 0, _ => []
  | _ + 1, [] => []
  | f + 1, b :: rest =>
    let s := utf8dStep b rest
    s.1 :: utf8dF f s.2

/-- Modelled from the spec: permissive (lossy) UTF-8 decoding; well-formed
sequences decode to their scalars, malformed bytes degrade to U+FFFD and
never fail. -/
def utf8d (l : List Nat) : List Nat := utf8dF l.length l

/-- Uppercase hexadecimal digit character for a value below 16. -/
def hexDigit (n : Nat) : Nat := if n < 10 then 0x30 + n else 0x37 + n

/-- Numeric value of a hexadecimal digit character (either case). -/
def hexVal (c : Nat) : Option Nat :=
  if 0x30 ≤ c ∧ c ≤ 0x39 then some (c - 0x30)
  else if 0x41 ≤ c ∧ c ≤ 0x46 then some (c - 0x37)
  else if 0x61 ≤ c ∧ c ≤ 0x66 then some (c - 0x57)
  else none

/-- Modelled from the spec: one step of percent decoding of a byte stream as
done by the external percent-encoding crate: a percent sign followed by two
hex digits becomes that byte, anything else is copied through unchanged. -/
def pctStep (b : Nat) (rest : List Nat) : Nat × List Nat :=
  if b = 0x25 then
    match rest with
    | h :: l :: r2 =>
      match hexVal h, hexVal l with
      | some hv, some lv => (hv * 16 + lv, r2)
      | _, _ => (b, h :: l :: r2)
    | _ => (b, rest)
  else (b, rest)

/-- Fuelled driver for the percent decoder; fuel equal to the list length
always suffices. -/
def pctDecF : Nat → List Nat → List Nat
  | 0, _ => []
  | _ + 1, [] => []
  | f + 1, b :: rest =>
    let s := pctStep b rest
    s.1 :: pctDecF f s.2

/-- Modelled from the spec: percent decoding of a byte stream. -/
def pctDecodeBytes (l : List Nat) : List Nat := pctDecF l.length l

/-- The query percent-encode set of raw.rs: C0 controls and DEL (the
CONTROLS set of the percent-encoding crate) plus space, double quote,
number sign, less-than and greater-than. -/
def querySet (b : Nat) : Bool :=
  b < 0x20 || b == 0x7F || b == 0x20 || b == 0x22 || b == 0x23 ||
    b == 0x3C || b == 0x3E

/-- The path percent-encode set of raw.rs: the query set plus question mark,
backtick character (0x60), the two curly brace characters (0x7B, 0x7D) and
the forward slash. -/
def pathSet (b : Nat) : Bool :=
  querySet b || b == 0x3F || b == 0x60 || b == 0x7B || b == 0x7D || b == 0x2F

/-- Modelled from the spec: which bytes the external percent-encoding crate
escapes, as pinned down by the tests in lib.rs (single_query_value_amp,
single_query_value_equal, looks_url_encoded): every non-ASCII byte, every
byte of the given set, and always percent (0x25), ampersand (0x26) and
equals (0x3D). -/
def shouldEnc (set : Nat → Bool) (b : Nat) : Bool :=
  !(b < 0x80) || set b || b == 0x25 || b == 0x26 || b == 0x3D

/-- Percent-encode one byte: escaped bytes become a percent sign and two
uppercase hex digits, other bytes pass through. -/
def encByte (set : Nat → Bool) (b : Nat) : List Nat :=
  if shouldEnc set b then [0x25, hexDigit (b / 16), hexDigit (b % 16)]
  else [b]

/-- Percent-encode a string against the given set (utf8_percent_encode):
encode to UTF-8 bytes, escape each byte as needed.  The result is ASCII, so
it is returned as a string of scalars directly. -/
def pctEncode (set : Nat → Bool) (s : Str) : Str :=
  (utf8s s).flatMap (encByte set)

/-- Percent-decode a wire string: take its UTF-8 bytes, undo percent
escapes, then lossily decode UTF-8 (the decode helper of raw.rs). -/
def decodeStr (s : Str) : Str := utf8d (pctDecodeBytes (utf8s s))

/-- Split a list at every occurrence of the separator, like Rust
str::split: n separators yield n+1 pieces, possibly empty. -/
def splitSep (sep : Nat) : List Nat → List (List Nat)
  | [] => [[]]
  | c :: rest =>
    match splitSep sep rest with
    | [] => [[c]]
    | p :: ps => if c = sep then [] :: p :: ps else (c :: p) :: ps

/-- Join pieces with a separator between consecutive pieces. -/
def joinSep (sep : Nat) : List (List Nat) → List Nat
  | [] => []
  | [x] => x
  | x :: y :: ys => x ++ sep :: joinSep sep (y :: ys)

/-- Index of the first occurrence of a scalar, like Rust str::find. -/
def firstIdx (a : Nat) : List Nat → Option Nat
  | [] => none
  | c :: rest => if c = a then some 0 else (firstIdx a rest).map (· + 1)

/-! ## raw.rs: the codec -/

/-- parse_path of raw.rs: drop one leading slash if present; an empty
remainder yields no segments, otherwise split on slashes and
percent-decode each segment. -/
def parse_path (p : Str) : List Str :=
  let p := if p.head? = some 0x2F then p.tail else p
  if p = [] then [] else (splitSep 0x2F p).map decodeStr

/-- parse_query_pair of raw.rs: split at the first equals sign; no equals
sign means no value; key and value are percent-decoded independently. -/
def parseQueryPair (pair : Str) : QP :=
  match firstIdx 0x3D pair with
  | none => (decodeStr pair, none)
  | some idx => (decodeStr (pair.take idx), some (decodeStr (pair.drop (idx + 1))))

/-- parse_query of raw.rs: an empty query component yields no pairs,
otherwise split on ampersands and parse each pair. -/
def parse_query (q : Str) : List QP :=
  if q = [] then [] else (splitSep 0x26 q).map parseQueryPair

/-- parse_path_and_query of raw.rs: split at the first question mark; the
query component is absent exactly when there is no question mark. -/
def parsePathAndQuery (s : Str) : List Str × Option (List QP) :=
  match firstIdx 0x3F s with
  | none => (parse_path s, none)
  | some idx => (parse_path (s.take idx), some (parse_query (s.drop (idx + 1))))

/-- Render one query pair: encoded key, and an equals sign plus encoded
value only when a value is present. -/
def renderQueryPair (kv : QP) : Str :=
  pctEncode querySet kv.1 ++
    match kv.2 with
    | none => []
    | some v => 0x3D :: pctEncode querySet v

/-- render_path_and_query of raw.rs: one slash plus encoded segment per
path entry (just a slash when that is empty), then, if a query is present,
a question mark and the ampersand-joined pairs. -/
def render_path_and_query (path : List Str) (query : Option (List QP)) : Str :=
  let res := path.flatMap (fun seg => 0x2F :: pctEncode pathSet seg)
  let res := if res = [] then [0x2F] else res
  match query with
  | none => res
  | some qs => res ++ 0x3F :: joinSep 0x26 (qs.map renderQueryPair)

/-! ## normalize.rs: the normalizer -/

/-- The render-side dash escape of normalize_render_path: a segment that
contains no character other than a dash (including the empty segment) gains
one trailing dash. -/
def escapeDashSeg (s : Str) : Str :=
  if s.all (· = 0x2D) then s ++ [0x2D] else s

/-- The parse-side dash unescape of normalize_parse: a segment that
contains no character other than a dash loses its last dash. -/
def unescapeDashSeg (s : Str) : Str :=
  if s.all (· = 0x2D) then s.dropLast else s

/-- Normalization::normalize_parse: if any decoded segment is empty the
path is non-canonical and the error carries the re-rendering of the
non-empty segments with the query passed through; otherwise the segments
are returned with the dash unescape applied and the query untouched. -/
def normalizeParse (path : List Str) (query : Option (List QP)) :
    Except Str (List Str × Option (List QP)) :=
  if [] ∈ path then
    .error (render_path_and_query (path.filter (fun s => s ≠ [])) query)
  else
    .ok (path.map unescapeDashSeg, query)

/-- Normalization::normalize_render_path: apply the dash escape to every
outgoing segment. -/
def normalizeRenderPath (path : List Str) : List Str :=
  path.map escapeDashSeg

/-! ## lib.rs: route errors, PlainRoute, QueryMap -/

/-- Why parsing the route failed (RouteError of lib.rs). -/
inductive RouteError where
  | NormalizationFailed (target : Str)
  | NoMatch
  deriving DecidableEq, Repr

/-- PlainRoute of lib.rs: an unstructured route value. -/
structure PlainRoute where
  path : List Str
  query : Option (List QP)
  deriving DecidableEq, Repr

/-- PlainRoute's Route::parse: normalize, then collect. -/
def plainParse (path : List Str) (query : Option (List QP)) :
    Except RouteError PlainRoute :=
  match normalizeParse path query with
  | .error e => .error (.NormalizationFailed e)
  | .ok (p, q) => .ok ⟨p, q⟩

/-- PlainRoute's Route::path: the stored segments after the render-side
dash escape. -/
def plainPath (v : PlainRoute) : List Str := normalizeRenderPath v.path

/-- PlainRoute's Route::query: the stored pairs unchanged. -/
def plainQuery (v : PlainRoute) : Option (List QP) := v.query

/-- Route::render for PlainRoute: render the escaped segments and the
stored query pairs. -/
def plainRender (v : PlainRoute) : Str :=
  render_path_and_query (plainPath v) (plainQuery v)

/-- Route::parse_str for PlainRoute: lex the raw string, then parse. -/
def plainParseStr (s : Str) : Except RouteError PlainRoute :=
  let pq := parsePathAndQuery s
  plainParse pq.1 pq.2

/-- Route::parse_strs for PlainRoute, mirroring the trait default method
verbatim: the query string is lexed (after stripping a leading question
mark) only when it is empty, and is otherwise replaced by no query at
all. -/
def plainParseStrs (path : Str) (query : Str) : Except RouteError PlainRoute :=
  let p := parse_path path
  let q : Option (List QP) :=
    if query = [] then
      some (parse_query (if query.head? = some 0x3F then query.tail else query))
    else none
  plainParse p q

/-- The grouped view of one key in QueryMap: a count of bare occurrences
and the ordered list of valued occurrences. -/
abbrev QMEntry := Nat × List Str

/-- QueryMap of lib.rs, modelled as an association list with unique keys
(the iteration order of the underlying HashMap is never observed). -/
abbrev QueryMap := List (Str × QMEntry)

/-- Record one query pair in the map: a bare key bumps the count, a valued
key appends to the value list, a new key creates the entry. -/
def qmInsert (m : QueryMap) (k : Str) (v : Option Str) : QueryMap :=
  match m with
  | [] =>
    match v with
    | none => [(k, (1, []))]
    | some w => [(k, (0, [w]))]
  | (k₁, (c, vs)) :: rest =>
    if k₁ = k then
      match v with
      | none => (k₁, (c + 1, vs)) :: rest
      | some w => (k₁, (c, vs ++ [w])) :: rest
    else (k₁, (c, vs)) :: qmInsert rest k v

/-- Look up the entry of a key. -/
def qmLookup (m : QueryMap) (k : Str) : Option QMEntry :=
  match m with
  | [] => none
  | (k₁, e) :: rest => if k₁ = k then some e else qmLookup rest k

/-- QueryMap::from_query_iter: an absent query gives the empty map,
otherwise fold all pairs in. -/
def qmFromQuery (query : Option (List QP)) : QueryMap :=
  match query with
  | none => []
  | some qs => qs.foldl (fun m kv => qmInsert m kv.1 kv.2) []

/-- QueryMap::get_single: the sole valued occurrence of the key, if the
valued list has exactly one element. -/
def qmGetSingle (m : QueryMap) (k : Str) : Option Str :=
  match qmLookup m k with
  | none => none
  | some (_, vs) => if vs.length = 1 then vs.head? else none

/-- QueryMap::contains: the key occurs at least once, bare or valued. -/
def qmContains (m : QueryMap) (k : Str) : Bool :=
  (qmLookup m k).isSome

/-! ## RoutePiece: the built-in piece converters of lib.rs -/

/-- The built-in RoutePiece implementations: String, i32 and bool. -/
inductive PieceTy where
  | str
  | int
  | bool
  deriving DecidableEq, Repr

/-- A parsed field value of one of the built-in piece types. -/
inductive PieceVal where
  | vstr (s : Str)
  | vint (n : Int)
  | vbool (b : Bool)
  deriving DecidableEq, Repr

/-- An ASCII decimal digit. -/
def isDigit (c : Nat) : Bool := 0x30 ≤ c && c ≤ 0x39

/-- Numeric value of a digit string. -/
def digitsVal (s : Str) : Nat := s.foldl (fun acc c => acc * 10 + (c - 0x30)) 0

/-- i32::from_str as used by the RoutePiece impl for i32: an optional sign,
at least one digit, all digits, and the value within the i32 range. -/
def parseI32 (s : Str) : Option Int :=
  let sd : Int × Str :=
    match s with
    | c :: rest =>
      if c = 0x2B then (1, rest)
      else if c = 0x2D then (-1, rest)
      else (1, s)
    | [] => (1, [])
  if sd.2 = [] then none
  else if sd.2.all isDigit then
    let v : Int := sd.1 * (digitsVal sd.2 : Int)
    if -(2 ^ 31) ≤ v ∧ v < 2 ^ 31 then some v else none
  else none

/-- RoutePiece::parse_route_piece for each built-in type: String always
succeeds with the input, i32 parses decimal text, bool accepts exactly the
literals true and false. -/
def parsePiece (ty : PieceTy) (s : Str) : Option PieceVal :=
  match ty with
  | .str => some (.vstr s)
  | .int => (parseI32 s).map .vint
  | .bool =>
    if s = strLit "true" then some (.vbool true)
    else if s = strLit "false" then some (.vbool false)
    else none

/-! ## The derive-generated matcher (route_parse.rs), as an interpreter
over route templates: each enum variant's route attribute compiles to an
ordered list of path specs and query specs, and the generated parse method
tries the variants in declaration order. -/

/-- One path segment spec: a literal segment or a typed field slot. -/
inductive PathSpec where
  | lit (s : Str)
  | field (ty : PieceTy)
  deriving DecidableEq, Repr

/-- The value part of one query spec: bare key, literal value, or typed
field slot. -/
inductive QueryVal where
  | bare
  | lit (s : Str)
  | field (ty : PieceTy)
  deriving DecidableEq, Repr

/-- One query spec: a literal key with its value spec. -/
structure QuerySpec where
  key : Str
  val : QueryVal
  deriving DecidableEq, Repr

/-- The compiled template of one route variant. -/
structure Template where
  path : List PathSpec
  query : List QuerySpec
  deriving DecidableEq, Repr

/-- The generated per-segment parse code (Seg::gen_parse): a literal spec
consumes the next segment if it is equal, a field spec consumes the next
segment if the piece parser succeeds; a missing segment fails.  Returns
the bound values in order and the unconsumed segments. -/
def matchSegs : List PathSpec → List Str → Option (List PieceVal × List Str)
  | [], path => some ([], path)
  | spec :: specs, path =>
    match path with
    | [] => none
    | s :: rest =>
      match spec with
      | .lit l => if s = l then matchSegs specs rest else none
      | .field ty =>
        match parsePiece ty s with
        | some v => (matchSegs specs rest).map (fun p => (v :: p.1, p.2))
        | none => none

/-- The generated per-pair query parse code (Query::gen_parse): a bare spec
requires the key to be present, a literal spec requires get_single to
return exactly that value, a field spec requires get_single and the piece
parser to succeed. -/
def matchQuery : List QuerySpec → QueryMap → Option (List PieceVal)
  | [], _ => some []
  | q :: qs, qm =>
    match q.val with
    | .bare => if qmContains qm q.key then matchQuery qs qm else none
    | .lit s =>
      match qmGetSingle qm q.key with
      | some v => if v = s then matchQuery qs qm else none
      | none => none
    | .field ty =>
      match qmGetSingle qm q.key with
      | some v =>
        match parsePiece ty v with
        | some pv => (matchQuery qs qm).map (fun vs => pv :: vs)
        | none => none
      | none => none

/-- The generated per-variant closure (Route::gen_parse_block): walk the
path specs, require the path to be exhausted, walk the query specs, and
return the bound field values in order. -/
def matchTemplate (t : Template) (path : List Str) (qm : QueryMap) :
    Option (List PieceVal) :=
  match matchSegs t.path path with
  | none => none
  | some (vs, rest) =>
    if rest = [] then (matchQuery t.query qm).map (fun qvs => vs ++ qvs)
    else none

/-- The generated sequence of parse blocks (Routes::gen_parse_blocks): try
each template in declaration order, returning the index of the first
template that fully matches together with its bound values. -/
def firstMatch (ts : List Template) (path : List Str) (qm : QueryMap) :
    Option (Nat × List PieceVal) :=
  match ts with
  | [] => none
  | t :: rest =>
    match matchTemplate t path qm with
    | some v => some (0, v)
    | none => (firstMatch rest path qm).map (fun p => (p.1 + 1, p.2))

/-- The generated Route::parse: normalize, build the QueryMap, then try the
templates in declaration order; no template matching is NoMatch. -/
def routesParse (ts : List Template) (path : List Str)
    (query : Option (List QP)) : Except RouteError (Nat × List PieceVal) :=
  match normalizeParse path query with
  | .error e => .error (.NormalizationFailed e)
  | .ok (p, q) =>
    match firstMatch ts p (qmFromQuery q) with
    | some r => .ok r
    | none => .error .NoMatch

/-- Route::parse_str for a derived route type. -/
def routesParseStr (ts : List Template) (s : Str) :
    Except RouteError (Nat × List PieceVal) :=
  let pq := parsePathAndQuery s
  routesParse ts pq.1 pq.2

/-- Whether a parse outcome is a normalization failure (as opposed to a
success or a NoMatch). -/
def isNormFailed {α : Type} : Except RouteError α → Bool
  | .error (.NormalizationFailed _) => true
  | _ => false

/-- The ordered list of valued occurrences of a key in a query pair list
(the specification-level view that QueryMap groups by key). -/
def valuedOccurrences (qs : List QP) (k : Str) : List Str :=
  qs.filterMap (fun kv => if kv.1 = k then kv.2 else none)

/-- Every string of a query pair is valid Unicode. -/
def ValidQP (kv : QP) : Prop :=
  match kv.2 with
  | none => ValidStr kv.1
  | some w => ValidStr kv.1 ∧ ValidStr w

instance (kv : QP) : Decidable (ValidQP kv) := by
  unfold ValidQP; split <;> infer_instance

/-- Every string of an optional query pair list is valid Unicode. -/
def ValidQuery (q : Option (List QP)) : Prop :=
  match q with
  | none => True
  | some qs => ∀ kv ∈ qs, ValidQP kv

instance (q : Option (List QP)) : Decidable (ValidQuery q) := by
  unfold ValidQuery; split <;> infer_instance

/-- Every string of a PlainRoute is valid Unicode (Rust String values are
always valid UTF-8, so this is an invariant of the source type). -/
def ValidRoute (v : PlainRoute) : Prop :=
  (∀ s ∈ v.path, ValidStr s) ∧ ValidQuery v.query

instance (v : PlainRoute) : Decidable (ValidRoute v) := by
  unfold ValidRoute; infer_instance

/-- The example route set of routetype/tests/deriving.rs, in declaration
order: Home, Style, Hello, Foo, Goodbye, Readiness, Poll, Refresh. -/
def myRouteTemplates : List Template :=
  [ ⟨[], []⟩,
    ⟨[.lit (strLit "style.css")], []⟩,
    ⟨[.lit (strLit "hello"), .field .str], []⟩,
    ⟨[.lit (strLit "foo")], [⟨strLit "bar", .field .int⟩]⟩,
    ⟨[.lit (strLit "goodbye"), .field .str], []⟩,
    ⟨[], [⟨strLit "readiness", .bare⟩]⟩,
    ⟨[], [⟨strLit "poll", .field .bool⟩]⟩,
    ⟨[.lit (strLit "refresh")], [⟨strLit "force", .lit (strLit "true")⟩]⟩ ]

/-! ## The derive-generated renderer (route_parse.rs), as an interpreter
over route templates: the generated path and query methods walk the specs,
emitting literals as themselves and fields through render_route_piece. -/

/-- Fuelled most-significant-first decimal digit emitter; fuel above the
value always suffices since the value shrinks by a factor of ten. -/
def natDigitsF : Nat → Nat → Str
  | 0, _ => []
  | f + 1, m =>
    if m < 10 then [0x30 + m] else natDigitsF f (m / 10) ++ [0x30 + m % 10]

/-- Decimal digit string of a natural number. -/
def natDigits (m : Nat) : Str := natDigitsF (m + 1) m

/-- i32 to_string as used by the RoutePiece impl for i32: a minus sign for
negative values, then the decimal digits. -/
def intRender (n : Int) : Str :=
  if n < 0 then 0x2D :: natDigits (-n).toNat else natDigits n.toNat

/-- RoutePiece::render_route_piece for each built-in type. -/
def renderPiece : PieceVal → Str
  | .vstr s => s
  | .vint n => intRender n
  | .vbool b => if b then strLit "true" else strLit "false"

/-- The generated path arm statements (Seg::path_arm_stmts): literal specs
push themselves, field specs push the rendered piece, consuming the bound
values in order; returns the segments and the remaining values. -/
def renderSegs : List PathSpec → List PieceVal → List Str × List PieceVal
  | [], vals => ([], vals)
  | .lit s :: specs, vals =>
    let r := renderSegs specs vals
    (s :: r.1, r.2)
  | .field _ :: specs, vals =>
    match vals with
    | v :: rest =>
      let r := renderSegs specs rest
      (renderPiece v :: r.1, r.2)
    | [] => renderSegs specs []

/-- The generated query arm statements (Query::stmts): a bare spec pushes
the key with no value, a literal spec the key with the literal, a field
spec the key with the rendered piece. -/
def renderQuerySpecs : List QuerySpec → List PieceVal → List QP
  | [], _ => []
  | q :: qs, vals =>
    match q.val with
    | .bare => (q.key, none) :: renderQuerySpecs qs vals
    | .lit s => (q.key, some s) :: renderQuerySpecs qs vals
    | .field _ =>
      match vals with
      | v :: rest => (q.key, some (renderPiece v)) :: renderQuerySpecs qs rest
      | [] => renderQuerySpecs qs []

/-- The generated Route::render for one variant: the path arm through
normalize_render_path, the query arm exposed as no query when empty, then
render_path_and_query. -/
def renderRoute (t : Template) (vals : List PieceVal) : Str :=
  let pr := renderSegs t.path vals
  let qps := renderQuerySpecs t.query pr.2
  render_path_and_query (normalizeRenderPath pr.1)
    (if qps = [] then none else some qps)

/-! ## Fuel lemmas for the two byte-stream decoders -/

lemma utf8dStep_snd_length (b : Nat) (rest : List Nat) :
    (utf8dStep b rest).2.length ≤ rest.length := by
  unfold utf8dStep
  dsimp only
  repeat' split
  all_goals simp_all
  all_goals omega

lemma utf8dF_nil (f : Nat) : utf8dF f [] = [] := by cases f <;> rfl

lemma utf8dF_inv : ∀ f g (l : List Nat), l.length ≤ f → l.length ≤ g →
    utf8dF f l = utf8dF g l := by
  intro f
  induction f with
  | zero =>
    intro g l hf _
    have hl : l = [] := by cases l <;> simp_all
    subst hl
    rw [utf8dF_nil, utf8dF_nil]
  | succ f ih =>
    intro g l hf hg
    cases l with
    | nil => rw [utf8dF_nil, utf8dF_nil]
    | cons b rest =>
      cases g with
      | zero => simp at hg
      | succ g =>
        show (utf8dStep b rest).1 :: utf8dF f (utf8dStep b rest).2 =
          (utf8dStep b rest).1 :: utf8dF g (utf8dStep b rest).2
        have hs := utf8dStep_snd_length b rest
        simp only [List.length_cons] at hf hg
        rw [ih g _ (by omega) (by omega)]

lemma utf8d_cons (b : Nat) (rest : List Nat) :
    utf8d (b :: rest) = (utf8dStep b rest).1 :: utf8d (utf8dStep b rest).2 := by
  show utf8dF (b :: rest).length (b :: rest) = _
  simp only [List.length_cons]
  show (utf8dStep b rest).1 :: utf8dF rest.length (utf8dStep b rest).2 = _
  rw [utf8dF_inv rest.length (utf8dStep b rest).2.length _
    (utf8dStep_snd_length b rest) le_rfl]
  rfl

lemma utf8d_ne_nil (l : List Nat) (h : l ≠ []) : utf8d l ≠ [] := by
  cases l with
  | nil => exact absurd rfl h
  | cons b rest => rw [utf8d_cons]; exact List.cons_ne_nil _ _

lemma pctStep_snd_length (b : Nat) (rest : List Nat) :
    (pctStep b rest).2.length ≤ rest.length := by
  unfold pctStep
  repeat' split
  all_goals simp_all
  all_goals omega

lemma pctDecF_nil (f : Nat) : pctDecF f [] = [] := by cases f <;> rfl

lemma pctDecF_inv : ∀ f g (l : List Nat), l.length ≤ f → l.length ≤ g →
    pctDecF f l = pctDecF g l := by
  intro f
  induction f with
  | zero =>
    intro g l hf _
    have hl : l = [] := by cases l <;> simp_all
    subst hl
    rw [pctDecF_nil, pctDecF_nil]
  | succ f ih =>
    intro g l hf hg
    cases l with
    | nil => rw [pctDecF_nil, pctDecF_nil]
    | cons b rest =>
      cases g with
      | zero => simp at hg
      | succ g =>
        show (pctStep b rest).1 :: pctDecF f (pctStep b rest).2 =
          (pctStep b rest).1 :: pctDecF g (pctStep b rest).2
        have hs := pctStep_snd_length b rest
        simp only [List.length_cons] at hf hg
        rw [ih g _ (by omega) (by omega)]

lemma pctDec_cons (b : Nat) (rest : List Nat) :
    pctDecodeBytes (b :: rest) =
      (pctStep b rest).1 :: pctDecodeBytes ((pctStep b rest).2) := by
  show pctDecF (b :: rest).length (b :: rest) = _
  simp only [List.length_cons]
  show (pctStep b rest).1 :: pctDecF rest.length (pctStep b rest).2 = _
  rw [pctDecF_inv rest.length (pctStep b rest).2.length _
    (pctStep_snd_length b rest) le_rfl]
  rfl

lemma pctDec_ne_nil (l : List Nat) (h : l ≠ []) : pctDecodeBytes l ≠ [] := by
  cases l with
  | nil => exact absurd rfl h
  | cons b rest => rw [pctDec_cons]; exact List.cons_ne_nil _ _

/-! ## The codec round trip: decoding inverts encoding -/

lemma utf8dStep_enc1 (n : Nat) (rest : List Nat) (h : n < 0x80) :
    utf8dStep n rest = (n, rest) := by
  unfold utf8dStep
  rw [if_pos h]

lemma utf8dStep_enc2 (n : Nat) (rest : List Nat) (h1 : 0x80 ≤ n) (h2 : n < 0x800) :
    utf8dStep (0xC0 + n / 0x40) ((0x80 + n % 0x40) :: rest) = (n, rest) := by
  unfold utf8dStep
  dsimp only
  rw [if_neg (by omega), if_pos (by omega)]
  split
  next hcond =>
    simp only [Prod.mk.injEq]
    constructor
    · omega
    · trivial
  next hcond =>
    exfalso
    simp only [isCont, Bool.and_eq_true, decide_eq_true_eq] at hcond
    omega

lemma utf8dStep_enc3 (n : Nat) (rest : List Nat) (h1 : 0x800 ≤ n) (h2 : n < 0x10000)
    (hs : ¬(0xD800 ≤ n ∧ n < 0xE000)) :
    utf8dStep (0xE0 + n / 0x1000)
      ((0x80 + n / 0x40 % 0x40) :: (0x80 + n % 0x40) :: rest) = (n, rest) := by
  unfold utf8dStep
  dsimp only
  rw [if_neg (by omega), if_neg (by omega), if_pos (by omega)]
  split
  next hcond =>
    simp only [Prod.mk.injEq]
    constructor
    · omega
    · trivial
  next hcond =>
    exfalso
    simp only [isCont, Bool.and_eq_true, Bool.not_eq_true', decide_eq_true_eq,
      Bool.and_eq_false_iff, decide_eq_false_iff_not, not_and, not_lt] at hcond
    omega

lemma utf8dStep_enc4 (n : Nat) (rest : List Nat) (h1 : 0x10000 ≤ n) (h2 : n < 0x110000) :
    utf8dStep (0xF0 + n / 0x40000)
      ((0x80 + n / 0x1000 % 0x40) :: (0x80 + n / 0x40 % 0x40) :: (0x80 + n % 0x40) :: rest)
      = (n, rest) := by
  unfold utf8dStep
  dsimp only
  rw [if_neg (by omega), if_neg (by omega), if_neg (by omega), if_pos (by omega)]
  split
  next hcond =>
    simp only [Prod.mk.injEq]
    constructor
    · omega
    · trivial
  next hcond =>
    exfalso
    simp only [isCont, Bool.and_eq_true, decide_eq_true_eq] at hcond
    omega

lemma utf8d_enc (n : Nat) (hv : ValidScalar n) (rest : List Nat) :
    utf8d (utf8c n ++ rest) = n :: utf8d rest := by
  obtain ⟨hlt, hsur⟩ := hv
  by_cases h1 : n < 0x80
  · simp only [utf8c, if_pos h1, List.cons_append, List.nil_append]
    rw [utf8d_cons, utf8dStep_enc1 n rest h1]
  · by_cases h2 : n < 0x800
    · simp only [utf8c, if_neg h1, if_pos h2, List.cons_append, List.nil_append]
      rw [utf8d_cons, utf8dStep_enc2 n rest (by omega) h2]
    · by_cases h3 : n < 0x10000
      · simp only [utf8c, if_neg h1, if_neg h2, if_pos h3, List.cons_append,
          List.nil_append]
        rw [utf8d_cons, utf8dStep_enc3 n rest (by omega) h3 hsur]
      · simp only [utf8c, if_neg h1, if_neg h2, if_neg h3, List.cons_append,
          List.nil_append]
        rw [utf8d_cons, utf8dStep_enc4 n rest (by omega) (by omega)]

lemma utf8s_cons (n : Nat) (tl : Str) : utf8s (n :: tl) = utf8c n ++ utf8s tl := by
  simp [utf8s]

lemma utf8d_utf8s (s : Str) (hv : ValidStr s) : utf8d (utf8s s) = s := by
  induction s with
  | nil => rfl
  | cons n tl ih =>
    rw [utf8s_cons, utf8d_enc n (hv n (by simp)) (utf8s tl),
      ih (fun m hm => hv m (by simp [hm]))]

lemma utf8c_ne_nil (n : Nat) : utf8c n ≠ [] := by
  unfold utf8c
  repeat' split
  all_goals simp

lemma utf8c_lt (n : Nat) (h : n < 0x110000) : ∀ b ∈ utf8c n, b < 0x100 := by
  intro b hb
  unfold utf8c at hb
  repeat' split at hb
  all_goals simp at hb
  all_goals omega

lemma utf8s_lt (s : Str) (hv : ValidStr s) : ∀ b ∈ utf8s s, b < 0x100 := by
  intro b hb
  rw [utf8s, List.mem_flatMap] at hb
  obtain ⟨n, hn, hbn⟩ := hb
  exact utf8c_lt n (hv n hn).1 b hbn

lemma utf8s_ne_nil (s : Str) (h : s ≠ []) : utf8s s ≠ [] := by
  cases s with
  | nil => exact absurd rfl h
  | cons n tl =>
    rw [utf8s_cons]
    intro hc
    exact utf8c_ne_nil n (List.append_eq_nil.mp hc).1

lemma utf8s_ascii (s : Str) (h : ∀ c ∈ s, c < 0x80) : utf8s s = s := by
  induction s with
  | nil => rfl
  | cons n tl ih =>
    rw [utf8s_cons, ih (fun c hc => h c (by simp [hc]))]
    have hn := h n (by simp)
    simp [utf8c, if_pos hn]

lemma hexVal_hexDigit (m : Nat) (h : m < 16) : hexVal (hexDigit m) = some m := by
  unfold hexVal hexDigit
  repeat' split
  all_goals simp_all
  all_goals omega

lemma pctStep_enc (b : Nat) (rest : List Nat) (hb : b < 0x100) :
    pctStep 0x25 (hexDigit (b / 16) :: hexDigit (b % 16) :: rest) = (b, rest) := by
  unfold pctStep
  rw [if_pos rfl]
  dsimp only
  rw [hexVal_hexDigit _ (by omega), hexVal_hexDigit _ (by omega)]
  dsimp only
  simp only [Prod.mk.injEq]
  constructor
  · omega
  · trivial

lemma pctStep_copy (b : Nat) (rest : List Nat) (hb : b ≠ 0x25) :
    pctStep b rest = (b, rest) := by
  unfold pctStep
  rw [if_neg hb]

lemma shouldEnc_pct (set : Nat → Bool) : shouldEnc set 0x25 = true := by
  simp [shouldEnc]

lemma pctDec_encBytes (set : Nat → Bool) :
    ∀ bytes : List Nat, (∀ b ∈ bytes, b < 0x100) →
      pctDecodeBytes (bytes.flatMap (encByte set)) = bytes := by
  intro bytes
  induction bytes with
  | nil => intro _; rfl
  | cons b tl ih =>
    intro hb
    rw [List.flatMap_cons]
    by_cases hse : shouldEnc set b = true
    · rw [show encByte set b = [0x25, hexDigit (b / 16), hexDigit (b % 16)] from by
        unfold encByte; rw [if_pos hse]]
      simp only [List.cons_append, List.nil_append]
      rw [pctDec_cons, pctStep_enc b _ (hb b (by simp))]
      dsimp only
      rw [ih (fun x hx => hb x (by simp [hx]))]
    · rw [show encByte set b = [b] from by unfold encByte; rw [if_neg hse]]
      have hb25 : b ≠ 0x25 := by
        intro hcontra
        rw [hcontra, shouldEnc_pct] at hse
        exact hse rfl
      simp only [List.cons_append, List.nil_append]
      rw [pctDec_cons, pctStep_copy b _ hb25]
      dsimp only
      rw [ih (fun x hx => hb x (by simp [hx]))]

lemma mem_encByte (set : Nat → Bool) (b c : Nat) (h : c ∈ encByte set b) :
    c = 0x25 ∨ c = hexDigit (b / 16) ∨ c = hexDigit (b % 16) ∨
      (shouldEnc set b = false ∧ c = b) := by
  unfold encByte at h
  split at h
  next hse => simp at h; tauto
  next hse =>
    simp only [List.mem_singleton] at h
    subst h
    exact Or.inr (Or.inr (Or.inr ⟨Bool.eq_false_iff.mpr hse, rfl⟩))

lemma hexDigit_lt (m : Nat) (h : m < 16) : hexDigit m < 0x80 := by
  unfold hexDigit
  split
  all_goals omega

lemma mem_pctEncode_ascii (set : Nat → Bool) (s : Str) (hv : ValidStr s) :
    ∀ c ∈ pctEncode set s, c < 0x80 := by
  intro c hc
  unfold pctEncode at hc
  rw [List.mem_flatMap] at hc
  obtain ⟨b, hb, hcb⟩ := hc
  have hblt : b < 0x100 := utf8s_lt s hv b hb
  rcases mem_encByte set b c hcb with h | h | h | ⟨hse, h⟩
  · omega
  · rw [h]; exact hexDigit_lt _ (by omega)
  · rw [h]; exact hexDigit_lt _ (by omega)
  · subst h
    by_contra hge
    have ht : shouldEnc set c = true := by
      unfold shouldEnc
      have hd : (decide (c < 0x80)) = false := decide_eq_false (by omega)
      simp [hd]
    rw [ht] at hse
    exact Bool.noConfusion hse

lemma notMem_pctEncode (set : Nat → Bool) (a : Nat) (s : Str)
    (ha : shouldEnc set a = true) (h25 : a ≠ 0x25)
    (hhex : ∀ m, a ≠ hexDigit m) : a ∉ pctEncode set s := by
  intro hmem
  unfold pctEncode at hmem
  rw [List.mem_flatMap] at hmem
  obtain ⟨b, _, hcb⟩ := hmem
  rcases mem_encByte set b a hcb with h | h | h | ⟨hse, h⟩
  · exact h25 h
  · exact hhex _ h
  · exact hhex _ h
  · subst h
    rw [ha] at hse
    exact Bool.noConfusion hse

lemma hexDigit_ne_sep (a : Nat) (ha : a = 0x2F ∨ a = 0x3F ∨ a = 0x26 ∨ a = 0x3D) :
    ∀ m, a ≠ hexDigit m := by
  intro m
  unfold hexDigit
  split
  all_goals omega

lemma slash_notin_pctEncode (s : Str) : 0x2F ∉ pctEncode pathSet s :=
  notMem_pctEncode pathSet 0x2F s (by decide) (by decide)
    (hexDigit_ne_sep 0x2F (by tauto))

lemma qmark_notin_pctEncode (s : Str) : 0x3F ∉ pctEncode pathSet s :=
  notMem_pctEncode pathSet 0x3F s (by decide) (by decide)
    (hexDigit_ne_sep 0x3F (by tauto))

lemma amp_notin_pctEncode (s : Str) : 0x26 ∉ pctEncode querySet s :=
  notMem_pctEncode querySet 0x26 s (by decide) (by decide)
    (hexDigit_ne_sep 0x26 (by tauto))

lemma eq_notin_pctEncode (s : Str) : 0x3D ∉ pctEncode querySet s :=
  notMem_pctEncode querySet 0x3D s (by decide) (by decide)
    (hexDigit_ne_sep 0x3D (by tauto))

lemma encByte_ne_nil (set : Nat → Bool) (b : Nat) : encByte set b ≠ [] := by
  unfold encByte
  split
  all_goals simp

lemma pctEncode_ne_nil (set : Nat → Bool) (s : Str) (h : s ≠ []) :
    pctEncode set s ≠ [] := by
  unfold pctEncode
  have := utf8s_ne_nil s h
  cases he : utf8s s with
  | nil => exact absurd he this
  | cons b bs =>
    rw [List.flatMap_cons]
    intro hc
    exact encByte_ne_nil set b (List.append_eq_nil.mp hc).1

lemma decode_pctEncode (set : Nat → Bool) (s : Str) (hv : ValidStr s) :
    decodeStr (pctEncode set s) = s := by
  unfold decodeStr
  rw [utf8s_ascii _ (mem_pctEncode_ascii set s hv)]
  rw [show pctEncode set s = (utf8s s).flatMap (encByte set) from rfl]
  rw [pctDec_encBytes set (utf8s s) (utf8s_lt s hv)]
  exact utf8d_utf8s s hv

lemma decode_ne_nil (s : Str) (h : s ≠ []) : decodeStr s ≠ [] :=
  utf8d_ne_nil _ (pctDec_ne_nil _ (utf8s_ne_nil s h))

/-! ## Splitting and joining on separators -/

lemma splitSep_cons (sep c : Nat) (rest : List Nat) :
    splitSep sep (c :: rest) =
      match splitSep sep rest with
      | [] => [[c]]
      | p :: ps => if c = sep then [] :: p :: ps else (c :: p) :: ps := rfl

lemma splitSep_ne_nil (sep : Nat) : ∀ l : List Nat, splitSep sep l ≠ [] := by
  intro l
  cases l with
  | nil => simp [splitSep]
  | cons c rest =>
    unfold splitSep
    split
    · simp
    · split <;> simp

lemma splitSep_no_sep (sep : Nat) : ∀ p : List Nat, sep ∉ p →
    splitSep sep p = [p] := by
  intro p
  induction p with
  | nil => intro _; rfl
  | cons c rest ih =>
    intro h
    have hc : c ≠ sep := fun hcs => h (by simp [hcs])
    unfold splitSep
    rw [ih (fun hm => h (by simp [hm]))]
    dsimp only
    rw [if_neg hc]

lemma splitSep_append (sep : Nat) : ∀ A t : List Nat, sep ∉ A →
    splitSep sep (A ++ sep :: t) = A :: splitSep sep t := by
  intro A
  induction A with
  | nil =>
    intro t _
    simp only [List.nil_append]
    obtain ⟨p, ps, he⟩ := List.exists_cons_of_ne_nil (splitSep_ne_nil sep t)
    rw [splitSep_cons, he]
    dsimp only
    rw [if_pos rfl, ← he]
  | cons c A ih =>
    intro t h
    have hc : c ≠ sep := fun hcs => h (by simp [hcs])
    simp only [List.cons_append]
    rw [splitSep_cons, ih t (fun hm => h (by simp [hm]))]
    dsimp only
    rw [if_neg hc]

lemma splitSep_joinSep (sep : Nat) : ∀ ps : List (List Nat), ps ≠ [] →
    (∀ p ∈ ps, sep ∉ p) → splitSep sep (joinSep sep ps) = ps := by
  intro ps
  induction ps with
  | nil => intro h; exact absurd rfl h
  | cons p ps ih =>
    intro _ hfree
    cases ps with
    | nil => exact splitSep_no_sep sep p (hfree p (by simp))
    | cons q qs =>
      show splitSep sep (p ++ sep :: joinSep sep (q :: qs)) = p :: q :: qs
      rw [splitSep_append sep p _ (hfree p (by simp))]
      rw [ih (by simp) (fun x hx => hfree x (by simp [hx]))]

lemma joinSep_cons2_ne_nil (sep : Nat) (x y : List Nat) (r : List (List Nat)) :
    joinSep sep (x :: y :: r) ≠ [] := by
  show x ++ sep :: joinSep sep (y :: r) ≠ []
  simp

lemma firstIdx_not_mem (a : Nat) : ∀ s : List Nat, a ∉ s →
    firstIdx a s = none := by
  intro s
  induction s with
  | nil => intro _; rfl
  | cons c rest ih =>
    intro h
    unfold firstIdx
    rw [if_neg (fun hc => h (by simp [hc.symm])), ih (fun hm => h (by simp [hm]))]
    rfl

lemma firstIdx_append (a : Nat) : ∀ A B : List Nat, a ∉ A →
    firstIdx a (A ++ a :: B) = some A.length := by
  intro A
  induction A with
  | nil =>
    intro B _
    simp only [List.nil_append, List.length_nil]
    unfold firstIdx
    rw [if_pos rfl]
  | cons c A ih =>
    intro B h
    simp only [List.cons_append, List.length_cons]
    unfold firstIdx
    rw [if_neg (fun hc => h (by simp [hc.symm])), ih B (fun hm => h (by simp [hm]))]
    rfl

lemma take_len_append : ∀ A B : List Nat, (A ++ B).take A.length = A := by
  intro A
  induction A with
  | nil => intro B; rfl
  | cons c A ih => intro B; simp [ih]

lemma drop_len_succ_append : ∀ (A : List Nat) (a : Nat) (B : List Nat),
    (A ++ a :: B).drop (A.length + 1) = B := by
  intro A
  induction A with
  | nil => intro a B; rfl
  | cons c A ih => intro a B; simp [ih a B]

lemma flatMap_sep_cons (sep : Nat) (f : Str → List Nat) :
    ∀ l : List Str, l ≠ [] →
      l.flatMap (fun s => sep :: f s) = sep :: joinSep sep (l.map f) := by
  intro l
  induction l with
  | nil => intro h; exact absurd rfl h
  | cons x xs ih =>
    intro _
    cases xs with
    | nil => simp [joinSep]
    | cons y ys =>
      rw [List.flatMap_cons, ih (by simp)]
      simp only [List.map_cons, List.cons_append]
      rfl

/-! ## Normalizer lemmas -/

lemma unescape_escape (s : Str) : unescapeDashSeg (escapeDashSeg s) = s := by
  unfold escapeDashSeg unescapeDashSeg
  by_cases h : s.all (· = 0x2D) = true
  · rw [if_pos h]
    have h2 : (s ++ [0x2D]).all (· = 0x2D) = true := by
      simp [List.all_append, h]
    rw [if_pos h2, List.dropLast_concat]
  · rw [if_neg h, if_neg h]

lemma escape_ne_nil (s : Str) : escapeDashSeg s ≠ [] := by
  unfold escapeDashSeg
  split
  · simp
  next h =>
    cases s with
    | nil => exact absurd rfl h
    | cons c rest => simp

lemma escape_valid (s : Str) (hv : ValidStr s) : ValidStr (escapeDashSeg s) := by
  unfold escapeDashSeg
  split
  · intro n hn
    rcases List.mem_append.mp hn with h | h
    · exact hv n h
    · simp at h
      subst h
      exact (by decide : ValidScalar 0x2D)
  · exact hv

lemma nil_notin_normalizeRenderPath (p : List Str) :
    [] ∉ normalizeRenderPath p := by
  unfold normalizeRenderPath
  intro h
  rw [List.mem_map] at h
  obtain ⟨s, _, hs⟩ := h
  exact escape_ne_nil s hs

lemma map_unescape_normalizeRenderPath (p : List Str) :
    (normalizeRenderPath p).map unescapeDashSeg = p := by
  unfold normalizeRenderPath
  rw [List.map_map]
  have h : unescapeDashSeg ∘ escapeDashSeg = fun s => s := funext unescape_escape
  rw [h]
  exact List.map_id' p

lemma map_id_of_eq {α : Type} (l : List α) (f : α → α) (h : ∀ a ∈ l, f a = a) :
    l.map f = l := by
  induction l with
  | nil => rfl
  | cons x xs ih => simp_all

/-! ## Parsing a rendered string recovers its parts -/

lemma qmark_notin_renderPath (P : List Str) :
    0x3F ∉ (if P.flatMap (fun seg => 0x2F :: pctEncode pathSet seg) = []
      then [0x2F] else P.flatMap (fun seg => 0x2F :: pctEncode pathSet seg)) := by
  split
  · simp
  · intro h
    rw [List.mem_flatMap] at h
    obtain ⟨s, _, hs⟩ := h
    rcases List.mem_cons.mp hs with h | h
    · exact absurd h (by decide)
    · exact qmark_notin_pctEncode s h

lemma parse_path_render (P : List Str) (hne : ∀ p ∈ P, p ≠ []) :
    parse_path (if P.flatMap (fun seg => 0x2F :: pctEncode pathSet seg) = []
        then [0x2F] else P.flatMap (fun seg => 0x2F :: pctEncode pathSet seg))
      = P.map (fun s => decodeStr (pctEncode pathSet s)) := by
  cases P with
  | nil => rfl
  | cons s₀ tl =>
    have hflat : (s₀ :: tl).flatMap (fun seg => 0x2F :: pctEncode pathSet seg)
        = 0x2F :: joinSep 0x2F ((s₀ :: tl).map (pctEncode pathSet)) :=
      flatMap_sep_cons 0x2F (pctEncode pathSet) _ (by simp)
    rw [hflat, if_neg (by simp)]
    have hpp : parse_path (0x2F :: joinSep 0x2F ((s₀ :: tl).map (pctEncode pathSet))) =
        if joinSep 0x2F ((s₀ :: tl).map (pctEncode pathSet)) = [] then []
        else (splitSep 0x2F
          (joinSep 0x2F ((s₀ :: tl).map (pctEncode pathSet)))).map decodeStr := by
      unfold parse_path
      simp
    rw [hpp]
    have hJ : joinSep 0x2F ((s₀ :: tl).map (pctEncode pathSet)) ≠ [] := by
      cases tl with
      | nil =>
        simp only [List.map_cons, List.map_nil]
        exact pctEncode_ne_nil pathSet s₀ (hne s₀ (by simp))
      | cons y ys =>
        simp only [List.map_cons]
        exact joinSep_cons2_ne_nil 0x2F _ _ _
    rw [if_neg hJ]
    rw [splitSep_joinSep 0x2F _ (by simp) (by
      intro piece hp
      rw [List.mem_map] at hp
      obtain ⟨s, _, hs⟩ := hp
      rw [← hs]
      exact slash_notin_pctEncode s)]
    rw [List.map_map]
    rfl

lemma parsePathAndQuery_render (P : List Str) (query : Option (List QP))
    (hne : ∀ p ∈ P, p ≠ []) :
    parsePathAndQuery (render_path_and_query P query) =
      (P.map (fun s => decodeStr (pctEncode pathSet s)),
        query.map (fun qs =>
          parse_query (joinSep 0x26 (qs.map renderQueryPair)))) := by
  unfold render_path_and_query
  cases query with
  | none =>
    dsimp only
    unfold parsePathAndQuery
    rw [firstIdx_not_mem 0x3F _ (qmark_notin_renderPath P)]
    dsimp only
    rw [parse_path_render P hne]
    rfl
  | some qs =>
    dsimp only
    unfold parsePathAndQuery
    rw [firstIdx_append 0x3F _ _ (qmark_notin_renderPath P)]
    dsimp only
    rw [take_len_append, drop_len_succ_append]
    rw [parse_path_render P hne]
    rfl

/-! ## Query pair round trip -/

lemma renderQueryPair_amp_free (kv : QP) : 0x26 ∉ renderQueryPair kv := by
  rcases kv with ⟨k, v⟩
  unfold renderQueryPair
  intro h
  rcases List.mem_append.mp h with h | h
  · exact amp_notin_pctEncode k h
  · cases v with
    | none => simp at h
    | some w =>
      rcases List.mem_cons.mp h with h | h
      · exact absurd h (by decide)
      · exact amp_notin_pctEncode w h

lemma renderQueryPair_ne_nil (kv : QP) (h : kv ≠ ([], none)) :
    renderQueryPair kv ≠ [] := by
  rcases kv with ⟨k, v⟩
  cases v with
  | some w =>
    show pctEncode querySet k ++ 0x3D :: pctEncode querySet w ≠ []
    simp
  | none =>
    have hk : k ≠ [] := fun hknil => h (by rw [hknil])
    show pctEncode querySet k ++ [] ≠ []
    simpa using pctEncode_ne_nil querySet k hk

lemma parseQueryPair_render (kv : QP) (hv : ValidQP kv) :
    parseQueryPair (renderQueryPair kv) = kv := by
  rcases kv with ⟨k, v⟩
  cases v with
  | none =>
    have hk : ValidStr k := hv
    unfold renderQueryPair parseQueryPair
    dsimp only
    rw [List.append_nil, firstIdx_not_mem 0x3D _ (eq_notin_pctEncode k)]
    rw [decode_pctEncode querySet k hk]
  | some w =>
    have hk : ValidStr k := hv.1
    have hw : ValidStr w := hv.2
    unfold renderQueryPair parseQueryPair
    dsimp only
    rw [firstIdx_append 0x3D _ _ (eq_notin_pctEncode k)]
    dsimp only
    rw [take_len_append, drop_len_succ_append]
    rw [decode_pctEncode querySet k hk, decode_pctEncode querySet w hw]

lemma parse_render_query (qs : List QP) (hv : ∀ kv ∈ qs, ValidQP kv)
    (hq : qs ≠ [([], none)]) :
    parse_query (joinSep 0x26 (qs.map renderQueryPair)) = qs := by
  cases qs with
  | nil => rfl
  | cons kv tl =>
    have hJ : joinSep 0x26 ((kv :: tl).map renderQueryPair) ≠ [] := by
      cases tl with
      | nil =>
        simp only [List.map_cons, List.map_nil]
        exact renderQueryPair_ne_nil kv (fun hkv => hq (by rw [hkv]))
      | cons y ys =>
        simp only [List.map_cons]
        exact joinSep_cons2_ne_nil 0x26 _ _ _
    unfold parse_query
    rw [if_neg hJ]
    rw [splitSep_joinSep 0x26 _ (by simp) (by
      intro piece hp
      rw [List.mem_map] at hp
      obtain ⟨kv₂, _, hkv₂⟩ := hp
      rw [← hkv₂]
      exact renderQueryPair_amp_free kv₂)]
    rw [List.map_map]
    exact map_id_of_eq _ _ (fun kv₂ hkv₂ => parseQueryPair_render kv₂ (hv kv₂ hkv₂))

/-! ## QueryMap lemmas -/

lemma qmLookup_insert_eq (k : Str) : ∀ (m : QueryMap) (v : Option Str)
    (c : Nat) (vs : List Str), qmLookup m k = some (c, vs) →
    qmLookup (qmInsert m k v) k =
      some (match v with | none => (c + 1, vs) | some w => (c, vs ++ [w])) := by
  intro m
  induction m with
  | nil => intro v c vs h; exact Option.noConfusion h
  | cons e rest ih =>
    obtain ⟨k₁, c₁, vs₁⟩ := e
    intro v c vs h
    by_cases hk : k₁ = k
    · unfold qmLookup at h
      rw [if_pos hk] at h
      simp only [Option.some.injEq, Prod.mk.injEq] at h
      unfold qmInsert
      rw [if_pos hk]
      cases v with
      | none =>
        dsimp only
        unfold qmLookup
        rw [if_pos hk]
        simp [h.1, h.2]
      | some w =>
        dsimp only
        unfold qmLookup
        rw [if_pos hk]
        simp [h.1, h.2]
    · unfold qmLookup at h
      rw [if_neg hk] at h
      unfold qmInsert
      rw [if_neg hk]
      unfold qmLookup
      rw [if_neg hk]
      exact ih v c vs h

lemma qmLookup_insert_new (k : Str) : ∀ (m : QueryMap) (v : Option Str),
    qmLookup m k = none →
    qmLookup (qmInsert m k v) k =
      some (match v with | none => (1, []) | some w => (0, [w])) := by
  intro m
  induction m with
  | nil =>
    intro v _
    cases v with
    | none => unfold qmInsert qmLookup; rw [if_pos rfl]
    | some w => unfold qmInsert qmLookup; rw [if_pos rfl]
  | cons e rest ih =>
    obtain ⟨k₁, c₁, vs₁⟩ := e
    intro v h
    by_cases hk : k₁ = k
    · unfold qmLookup at h
      rw [if_pos hk] at h
      exact Option.noConfusion h
    · unfold qmLookup at h
      rw [if_neg hk] at h
      unfold qmInsert
      rw [if_neg hk]
      unfold qmLookup
      rw [if_neg hk]
      exact ih v h

lemma qmLookup_insert_other (k k₂ : Str) (hk : k₂ ≠ k) :
    ∀ (m : QueryMap) (v : Option Str),
      qmLookup (qmInsert m k₂ v) k = qmLookup m k := by
  intro m
  induction m with
  | nil =>
    intro v
    cases v with
    | none => unfold qmInsert qmLookup; rw [if_neg hk]; rfl
    | some w => unfold qmInsert qmLookup; rw [if_neg hk]; rfl
  | cons e rest ih =>
    obtain ⟨k₁, c₁, vs₁⟩ := e
    intro v
    by_cases hk₁ : k₁ = k₂
    · unfold qmInsert
      rw [if_pos hk₁]
      cases v with
      | none =>
        dsimp only
        unfold qmLookup
        rw [if_neg (hk₁ ▸ hk), if_neg (hk₁ ▸ hk)]
      | some w =>
        dsimp only
        unfold qmLookup
        rw [if_neg (hk₁ ▸ hk), if_neg (hk₁ ▸ hk)]
    · unfold qmInsert
      rw [if_neg hk₁]
      unfold qmLookup
      by_cases hkk : k₁ = k
      · rw [if_pos hkk, if_pos hkk]
      · rw [if_neg hkk, if_neg hkk]
        exact ih v

lemma valuedOccurrences_cons (kv : QP) (qs : List QP) (k : Str) :
    valuedOccurrences (kv :: qs) k =
      (if kv.1 = k then kv.2.toList else []) ++ valuedOccurrences qs k := by
  unfold valuedOccurrences
  rw [List.filterMap_cons]
  by_cases hk : kv.1 = k
  · rw [if_pos hk, if_pos hk]
    cases h2 : kv.2 with
    | none => rfl
    | some w => rfl
  · rw [if_neg hk, if_neg hk]
    rfl

lemma qmFold_values (k : Str) : ∀ (qs : List QP) (m : QueryMap),
    (∀ c vs, qmLookup m k = some (c, vs) →
      ∃ c₂, qmLookup (qs.foldl (fun m kv => qmInsert m kv.1 kv.2) m) k =
        some (c₂, vs ++ valuedOccurrences qs k)) ∧
    (qmLookup m k = none →
      (qmLookup (qs.foldl (fun m kv => qmInsert m kv.1 kv.2) m) k = none ∧
        valuedOccurrences qs k = []) ∨
      ∃ c₂, qmLookup (qs.foldl (fun m kv => qmInsert m kv.1 kv.2) m) k =
        some (c₂, valuedOccurrences qs k)) := by
  intro qs
  induction qs with
  | nil =>
    intro m
    constructor
    · intro c vs h
      exact ⟨c, by simpa [valuedOccurrences] using h⟩
    · intro h
      exact Or.inl ⟨h, rfl⟩
  | cons kv qs ih =>
    intro m
    rw [List.foldl_cons]
    constructor
    · intro c vs h
      by_cases hk : kv.1 = k
      · subst hk
        cases hv : kv.2 with
        | none =>
          obtain ⟨c₂, h₂⟩ := (ih (qmInsert m kv.1 kv.2)).1 (c + 1) vs
            (by rw [hv]; exact qmLookup_insert_eq kv.1 m none c vs h)
          refine ⟨c₂, ?_⟩
          rw [valuedOccurrences_cons]
          simpa [hv] using h₂
        | some w =>
          obtain ⟨c₂, h₂⟩ := (ih (qmInsert m kv.1 kv.2)).1 c (vs ++ [w])
            (by rw [hv]; exact qmLookup_insert_eq kv.1 m (some w) c vs h)
          refine ⟨c₂, ?_⟩
          rw [valuedOccurrences_cons]
          simpa [hv] using h₂
      · have hins := qmLookup_insert_other k kv.1 hk m kv.2
        rw [h] at hins
        obtain ⟨c₂, h₂⟩ := (ih (qmInsert m kv.1 kv.2)).1 c vs hins
        exact ⟨c₂, by rw [valuedOccurrences_cons]; simpa [hk] using h₂⟩
    · intro h
      by_cases hk : kv.1 = k
      · subst hk
        cases hv : kv.2 with
        | none =>
          obtain ⟨c₂, h₂⟩ := (ih (qmInsert m kv.1 kv.2)).1 1 []
            (by rw [hv]; exact qmLookup_insert_new kv.1 m none h)
          refine Or.inr ⟨c₂, ?_⟩
          rw [valuedOccurrences_cons]
          simpa [hv] using h₂
        | some w =>
          obtain ⟨c₂, h₂⟩ := (ih (qmInsert m kv.1 kv.2)).1 0 [w]
            (by rw [hv]; exact qmLookup_insert_new kv.1 m (some w) h)
          refine Or.inr ⟨c₂, ?_⟩
          rw [valuedOccurrences_cons]
          simpa [hv] using h₂
      · have hins := qmLookup_insert_other k kv.1 hk m kv.2
        rw [h] at hins
        rcases (ih (qmInsert m kv.1 kv.2)).2 hins with ⟨h₂, h₃⟩ | ⟨c₂, h₂⟩
        · exact Or.inl ⟨h₂, by rw [valuedOccurrences_cons]; simpa [hk] using h₃⟩
        · exact Or.inr ⟨c₂, by rw [valuedOccurrences_cons]; simpa [hk] using h₂⟩

lemma qmFromQuery_values (qs : List QP) (k : Str) :
    (qmLookup (qmFromQuery (some qs)) k = none ∧ valuedOccurrences qs k = []) ∨
    ∃ c, qmLookup (qmFromQuery (some qs)) k = some (c, valuedOccurrences qs k) :=
  (qmFold_values k qs []).2 rfl

/-! ## Matcher lemmas -/

lemma matchSegs_length : ∀ (specs : List PathSpec) (path : List Str)
    (vs : List PieceVal) (rest : List Str),
    matchSegs specs path = some (vs, rest) →
    path.length = specs.length + rest.length := by
  intro specs
  induction specs with
  | nil =>
    intro path vs rest h
    unfold matchSegs at h
    simp only [Option.some.injEq, Prod.mk.injEq] at h
    rw [← h.2]
    simp
  | cons spec specs ih =>
    intro path vs rest h
    unfold matchSegs at h
    cases path with
    | nil => exact Option.noConfusion h
    | cons s p2 =>
      cases spec with
      | lit l =>
        dsimp only at h
        split at h
        · have := ih p2 vs rest h
          simp only [List.length_cons]
          omega
        · exact Option.noConfusion h
      | field ty =>
        dsimp only at h
        cases hp : parsePiece ty s with
        | none => rw [hp] at h; exact Option.noConfusion h
        | some v =>
          rw [hp] at h
          rcases Option.map_eq_some'.mp h with ⟨⟨vs2, rest2⟩, hms, heq⟩
          simp only [Prod.mk.injEq] at heq
          have := ih p2 vs2 rest2 hms
          simp only [List.length_cons]
          rw [← heq.2]
          omega

lemma firstMatch_iff : ∀ (ts : List Template) (path : List Str) (qm : QueryMap)
    (i : Nat) (v : List PieceVal),
    firstMatch ts path qm = some (i, v) ↔
      ((∃ t, ts[i]? = some t ∧ matchTemplate t path qm = some v) ∧
        ∀ j, j < i → ∀ t, ts[j]? = some t → matchTemplate t path qm = none) := by
  intro ts
  induction ts with
  | nil =>
    intro path qm i v
    simp [firstMatch]
  | cons t ts ih =>
    intro path qm i v
    unfold firstMatch
    cases hm : matchTemplate t path qm with
    | some w =>
      constructor
      · intro h
        simp only [Option.some.injEq, Prod.mk.injEq] at h
        obtain ⟨hi, hv⟩ := h
        subst hi
        subst hv
        refine ⟨⟨t, by simp, hm⟩, ?_⟩
        intro j hj
        exact absurd hj (Nat.not_lt_zero j)
      · rintro ⟨⟨t₂, ht₂, hmt₂⟩, hprev⟩
        cases i with
        | zero =>
          simp only [List.getElem?_cons_zero, Option.some.injEq] at ht₂
          subst ht₂
          rw [hm] at hmt₂
          simp only [Option.some.injEq] at hmt₂
          rw [hmt₂]
        | succ i2 =>
          have h0 := hprev 0 (by omega) t (by simp)
          rw [hm] at h0
          exact Option.noConfusion h0
    | none =>
      constructor
      · intro h
        rcases Option.map_eq_some'.mp h with ⟨⟨i2, v2⟩, hfm, heq⟩
        simp only [Prod.mk.injEq] at heq
        obtain ⟨hi, hv⟩ := heq
        subst hi
        subst hv
        obtain ⟨⟨t₂, ht₂, hmt₂⟩, hprev⟩ := (ih path qm i2 v2).mp hfm
        refine ⟨⟨t₂, by simpa using ht₂, hmt₂⟩, ?_⟩
        intro j hj t₃ ht₃
        cases j with
        | zero =>
          simp only [List.getElem?_cons_zero, Option.some.injEq] at ht₃
          rw [← ht₃]
          exact hm
        | succ j2 =>
          exact hprev j2 (by omega) t₃ (by simpa using ht₃)
      · rintro ⟨⟨t₂, ht₂, hmt₂⟩, hprev⟩
        cases i with
        | zero =>
          simp only [List.getElem?_cons_zero, Option.some.injEq] at ht₂
          subst ht₂
          rw [hm] at hmt₂
          exact Option.noConfusion hmt₂
        | succ i2 =>
          have hfm := (ih path qm i2 v).mpr
            ⟨⟨t₂, by simpa using ht₂, hmt₂⟩,
              fun j hj t₃ ht₃ => hprev (j + 1) (by omega) t₃ (by simpa using ht₃)⟩
          rw [hfm]
          rfl

/-! ## Decimal rendering of i32 values round-trips through parseI32 -/

lemma digitsVal_append_digit (a : Str) (c : Nat) :
    digitsVal (a ++ [c]) = digitsVal a * 10 + (c - 0x30) := by
  unfold digitsVal
  rw [List.foldl_append]
  rfl

lemma natDigitsF_spec : ∀ f m, m < f →
    natDigitsF f m ≠ [] ∧ (∀ c ∈ natDigitsF f m, 0x30 ≤ c ∧ c ≤ 0x39) ∧
    digitsVal (natDigitsF f m) = m := by
  intro f
  induction f with
  | zero => intro m hm; exact absurd hm (Nat.not_lt_zero m)
  | succ f ih =>
    intro m hm
    unfold natDigitsF
    by_cases h10 : m < 10
    · rw [if_pos h10]
      refine ⟨by simp, ?_, ?_⟩
      · intro c hc
        simp at hc
        omega
      · unfold digitsVal
        simp
    · rw [if_neg h10]
      obtain ⟨hne, hdig, hval⟩ := ih (m / 10) (by omega)
      refine ⟨by simp, ?_, ?_⟩
      · intro c hc
        rcases List.mem_append.mp hc with h | h
        · exact hdig c h
        · simp at h
          omega
      · rw [digitsVal_append_digit, hval]
        omega

lemma natDigits_spec (m : Nat) :
    natDigits m ≠ [] ∧ (∀ c ∈ natDigits m, 0x30 ≤ c ∧ c ≤ 0x39) ∧
    digitsVal (natDigits m) = m :=
  natDigitsF_spec (m + 1) m (by omega)

lemma all_isDigit_of_range (d : Str) (h : ∀ c ∈ d, 0x30 ≤ c ∧ c ≤ 0x39) :
    d.all isDigit = true := by
  rw [List.all_eq_true]
  intro c hc
  simp only [isDigit, Bool.and_eq_true, decide_eq_true_eq]
  exact ⟨(h c hc).1, (h c hc).2⟩

lemma parse_intRender (n : Int) (h1 : -(2 ^ 31) ≤ n) (h2 : n < 2 ^ 31) :
    parseI32 (intRender n) = some n := by
  unfold intRender
  by_cases hn : n < 0
  · rw [if_pos hn]
    obtain ⟨hne, hdig, hval⟩ := natDigits_spec (-n).toNat
    show (if natDigits (-n).toNat = [] then none
      else if (natDigits (-n).toNat).all isDigit then
        if -(2 ^ 31) ≤ (-1 : Int) * (digitsVal (natDigits (-n).toNat) : Int) ∧
            (-1 : Int) * (digitsVal (natDigits (-n).toNat) : Int) < 2 ^ 31
          then some ((-1 : Int) * (digitsVal (natDigits (-n).toNat) : Int))
          else none
      else none) = some n
    rw [if_neg hne, if_pos (all_isDigit_of_range _ hdig), hval]
    have hcast : (((-n).toNat : Nat) : Int) = -n := Int.toNat_of_nonneg (by omega)
    rw [hcast]
    rw [if_pos (by constructor <;> omega)]
    have : (-1 : Int) * -n = n := by ring
    rw [this]
  · rw [if_neg hn]
    obtain ⟨hne, hdig, hval⟩ := natDigits_spec n.toNat
    cases hd : natDigits n.toNat with
    | nil => exact absurd hd hne
    | cons c rest =>
      rw [hd] at hdig hval
      have hc := hdig c (by simp)
      unfold parseI32
      dsimp only
      rw [if_neg (by omega : ¬c = 0x2B), if_neg (by omega : ¬c = 0x2D)]
      dsimp only
      rw [if_neg (by simp : ¬(c :: rest) = []),
        if_pos (all_isDigit_of_range _ hdig), hval]
      have hcast : ((n.toNat : Nat) : Int) = n := Int.toNat_of_nonneg (by omega)
      rw [hcast]
      rw [if_pos (by constructor <;> omega)]
      have : (1 : Int) * n = n := by ring
      rw [this]

lemma intRender_valid (n : Int) : ValidStr (intRender n) := by
  unfold intRender
  split
  · intro c hc
    rcases List.mem_cons.mp hc with h | h
    · subst h
      decide
    · have := (natDigits_spec _).2.1 c h
      exact ⟨by omega, by omega⟩
  · intro c hc
    have := (natDigits_spec _).2.1 c hc
    exact ⟨by omega, by omega⟩

/-! ## First-match step lemmas and the re-parse of a derived render -/

lemma fm_skip (t : Template) (ts : List Template) (path : List Str)
    (qm : QueryMap) (h : matchTemplate t path qm = none) :
    firstMatch (t :: ts) path qm =
      (firstMatch ts path qm).map (fun p => (p.1 + 1, p.2)) := by
  show (match matchTemplate t path qm with
    | some v => some (0, v)
    | none => (firstMatch ts path qm).map
        (fun p : Nat × List PieceVal => (p.1 + 1, p.2))) = _
  rw [h]

lemma fm_hit (t : Template) (ts : List Template) (path : List Str)
    (qm : QueryMap) (v : List PieceVal) (h : matchTemplate t path qm = some v) :
    firstMatch (t :: ts) path qm = some (0, v) := by
  show (match matchTemplate t path qm with
    | some v => some (0, v)
    | none => (firstMatch ts path qm).map
        (fun p : Nat × List PieceVal => (p.1 + 1, p.2))) = _
  rw [h]

lemma derived_reparse (ts : List Template) (segs : List Str)
    (query : Option (List QP)) (hv : ∀ s ∈ segs, ValidStr s)
    (hvq : ValidQuery query) (hq1 : query ≠ some [([], none)]) :
    routesParseStr ts (render_path_and_query (normalizeRenderPath segs) query) =
      match firstMatch ts segs (qmFromQuery query) with
      | some r => .ok r
      | none => .error .NoMatch := by
  unfold routesParseStr
  dsimp only
  rw [parsePathAndQuery_render (normalizeRenderPath segs) query (fun s hs => by
    unfold normalizeRenderPath at hs
    rw [List.mem_map] at hs
    obtain ⟨s₀, _, hs₀⟩ := hs
    rw [← hs₀]
    exact escape_ne_nil s₀)]
  dsimp only
  rw [map_id_of_eq _ _ (fun s hs => by
    unfold normalizeRenderPath at hs
    rw [List.mem_map] at hs
    obtain ⟨s₀, hs₀p, hs₀⟩ := hs
    rw [← hs₀]
    exact decode_pctEncode pathSet _ (escape_valid s₀ (hv s₀ hs₀p)))]
  cases query with
  | none =>
    unfold routesParse normalizeParse
    rw [if_neg (nil_notin_normalizeRenderPath segs)]
    dsimp only
    rw [map_unescape_normalizeRenderPath]
    rfl
  | some qs =>
    simp only [Option.map_some']
    have hq₂ : qs ≠ [([], none)] := fun hqs => hq1 (by simp [hqs])
    rw [parse_render_query qs hvq hq₂]
    unfold routesParse normalizeParse
    rw [if_neg (nil_notin_normalizeRenderPath segs)]
    dsimp only
    rw [map_unescape_normalizeRenderPath]

/-! ## Claim theorems -/

/-- C1 (counterexample): the round trip fails as stated, for both route
type shapes covered by the claim.  The PlainRoute with empty path and the
single query pair with empty key and no value renders to the two
characters slash and question mark, which re-parse to a present-but-empty
query pair list.  In the canonical example domain, Readiness (template
index 5) renders to the string slash-question-mark-readiness and Poll
(template index 6) to slash-question-mark-poll-equals-true; both rendered
strings have an empty path, which the earlier-declared Home template
(index 0, empty path, no query specs) matches first, so re-parsing yields
Home, not the original variant. -/
theorem plain_round_trip_cex :
    (plainParseStr (plainRender ⟨[], some [([], none)]⟩) =
        .ok ⟨[], some []⟩ ∧
      (⟨[], some []⟩ : PlainRoute) ≠ ⟨[], some [([], none)]⟩) ∧
    (renderRoute ⟨[], [⟨strLit "readiness", .bare⟩]⟩ [] =
        strLit "/?readiness" ∧
      routesParseStr myRouteTemplates (strLit "/?readiness") = .ok (0, []) ∧
      (0, ([] : List PieceVal)) ≠ (5, ([] : List PieceVal))) ∧
    (renderRoute ⟨[], [⟨strLit "poll", .field .bool⟩]⟩ [.vbool true] =
        strLit "/?poll=true" ∧
      routesParseStr myRouteTemplates (strLit "/?poll=true") = .ok (0, []) ∧
      (0, ([] : List PieceVal)) ≠ (6, [PieceVal.vbool true])) := by
  exact ⟨⟨rfl, by decide⟩, ⟨rfl, rfl, by decide⟩, ⟨rfl, rfl, by decide⟩⟩

/-- C1 (amended): rendering then re-parsing yields the same value for
every route value not shadowed by an earlier-declared template: every
PlainRoute value v with valid Unicode strings whose query is not exactly
the single pair of an empty key with no value satisfies
parse_str (render v) = Ok v; and in the canonical example domain every
variant except Readiness and Poll (whose renders the earlier Home template
matches first) round-trips: Home, Style, Hello with any name, Foo with
any in-range bar, Goodbye with any value, and Refresh all re-parse to
their own variant with their own field values. -/
theorem plain_round_trip :
    (∀ v : PlainRoute, ValidRoute v → v.query ≠ some [([], none)] →
      plainParseStr (plainRender v) = .ok v) ∧
    routesParseStr myRouteTemplates (renderRoute ⟨[], []⟩ []) = .ok (0, []) ∧
    routesParseStr myRouteTemplates
      (renderRoute ⟨[.lit (strLit "style.css")], []⟩ []) = .ok (1, []) ∧
    (∀ name : Str, ValidStr name →
      routesParseStr myRouteTemplates
        (renderRoute ⟨[.lit (strLit "hello"), .field .str], []⟩ [.vstr name]) =
        .ok (2, [.vstr name])) ∧
    (∀ n : Int, -(2 ^ 31) ≤ n → n < 2 ^ 31 →
      routesParseStr myRouteTemplates
        (renderRoute ⟨[.lit (strLit "foo")], [⟨strLit "bar", .field .int⟩]⟩
          [.vint n]) = .ok (3, [.vint n])) ∧
    (∀ s : Str, ValidStr s →
      routesParseStr myRouteTemplates
        (renderRoute ⟨[.lit (strLit "goodbye"), .field .str], []⟩ [.vstr s]) =
        .ok (4, [.vstr s])) ∧
    routesParseStr myRouteTemplates
      (renderRoute ⟨[.lit (strLit "refresh")],
        [⟨strLit "force", .lit (strLit "true")⟩]⟩ []) = .ok (7, []) := by
  refine ⟨?_, rfl, rfl, ?_, ?_, ?_, rfl⟩
  · intro v hv hq
    obtain ⟨p, q⟩ := v
    obtain ⟨hvp, hvq⟩ := hv
    unfold plainRender plainPath plainQuery plainParseStr
    dsimp only
    rw [parsePathAndQuery_render (normalizeRenderPath p) q (fun s hs => by
      unfold normalizeRenderPath at hs
      rw [List.mem_map] at hs
      obtain ⟨s₀, _, hs₀⟩ := hs
      rw [← hs₀]
      exact escape_ne_nil s₀)]
    dsimp only
    rw [map_id_of_eq _ _ (fun s hs => by
      unfold normalizeRenderPath at hs
      rw [List.mem_map] at hs
      obtain ⟨s₀, hs₀p, hs₀⟩ := hs
      rw [← hs₀]
      exact decode_pctEncode pathSet _ (escape_valid s₀ (hvp s₀ hs₀p)))]
    cases q with
    | none =>
      unfold plainParse normalizeParse
      rw [if_neg (nil_notin_normalizeRenderPath p)]
      dsimp only
      rw [map_unescape_normalizeRenderPath]
      rfl
    | some qs =>
      simp only [Option.map_some']
      have hq₂ : qs ≠ [([], none)] := fun hqs => hq (by simp [hqs])
      rw [parse_render_query qs hvq hq₂]
      unfold plainParse normalizeParse
      rw [if_neg (nil_notin_normalizeRenderPath p)]
      dsimp only
      rw [map_unescape_normalizeRenderPath]
  · intro name hname
    have hrr : renderRoute ⟨[.lit (strLit "hello"), .field .str], []⟩ [.vstr name] =
        render_path_and_query (normalizeRenderPath [strLit "hello", name]) none := rfl
    rw [hrr, derived_reparse myRouteTemplates [strLit "hello", name] none
      (by
        intro s hs
        rcases List.mem_cons.mp hs with h | h
        · subst h; decide
        · simp at h; subst h; exact hname)
      trivial (by simp)]
    unfold myRouteTemplates
    rw [fm_skip _ _ _ _ (by simp [matchTemplate, matchSegs])]
    rw [fm_skip _ _ _ _ (by
      simp [matchTemplate, matchSegs,
        show strLit "hello" ≠ strLit "style.css" from by decide])]
    rw [fm_hit _ _ _ _ [PieceVal.vstr name] (by
      simp [matchTemplate, matchSegs, matchQuery, parsePiece])]
    rfl
  · intro n hr1 hr2
    have hrr : renderRoute ⟨[.lit (strLit "foo")], [⟨strLit "bar", .field .int⟩]⟩
        [.vint n] =
        render_path_and_query (normalizeRenderPath [strLit "foo"])
          (some [(strLit "bar", some (intRender n))]) := rfl
    rw [hrr, derived_reparse myRouteTemplates [strLit "foo"]
      (some [(strLit "bar", some (intRender n))])
      (by
        intro s hs
        simp at hs
        subst hs
        decide)
      (by
        intro kv hkv
        simp at hkv
        subst hkv
        show ValidStr (strLit "bar") ∧ ValidStr (intRender n)
        exact ⟨by decide, intRender_valid n⟩)
      (by
        intro hcontra
        simp only [Option.some.injEq, List.cons.injEq, Prod.mk.injEq] at hcontra
        exact Option.noConfusion hcontra.1.2)]
    unfold myRouteTemplates
    rw [fm_skip _ _ _ _ (by simp [matchTemplate, matchSegs])]
    rw [fm_skip _ _ _ _ (by
      simp [matchTemplate, matchSegs,
        show strLit "foo" ≠ strLit "style.css" from by decide])]
    rw [fm_skip _ _ _ _ (by
      simp [matchTemplate, matchSegs,
        show strLit "foo" ≠ strLit "hello" from by decide])]
    rw [fm_hit _ _ _ _ [PieceVal.vint n] (by
      simp [matchTemplate, matchSegs, matchQuery, qmFromQuery, qmInsert,
        qmGetSingle, qmLookup, parsePiece, parse_intRender n hr1 hr2])]
    rfl
  · intro s hvs
    have hrr : renderRoute ⟨[.lit (strLit "goodbye"), .field .str], []⟩ [.vstr s] =
        render_path_and_query (normalizeRenderPath [strLit "goodbye", s]) none := rfl
    rw [hrr, derived_reparse myRouteTemplates [strLit "goodbye", s] none
      (by
        intro x hx
        rcases List.mem_cons.mp hx with h | h
        · subst h; decide
        · simp at h; subst h; exact hvs)
      trivial (by simp)]
    unfold myRouteTemplates
    rw [fm_skip _ _ _ _ (by simp [matchTemplate, matchSegs])]
    rw [fm_skip _ _ _ _ (by
      simp [matchTemplate, matchSegs,
        show strLit "goodbye" ≠ strLit "style.css" from by decide])]
    rw [fm_skip _ _ _ _ (by
      simp [matchTemplate, matchSegs,
        show strLit "goodbye" ≠ strLit "hello" from by decide])]
    rw [fm_skip _ _ _ _ (by
      simp [matchTemplate, matchSegs,
        show strLit "goodbye" ≠ strLit "foo" from by decide])]
    rw [fm_hit _ _ _ _ [PieceVal.vstr s] (by
      simp [matchTemplate, matchSegs, matchQuery, parsePiece])]
    rfl

/-- C1 (witness). -/
theorem plain_round_trip_witness :
    plainParseStr (plainRender
        ⟨[strLit "foo", strLit ""], some [(strLit "a", some (strLit "b"))]⟩) =
      .ok ⟨[strLit "foo", strLit ""], some [(strLit "a", some (strLit "b"))]⟩ ∧
    routesParseStr myRouteTemplates
      (renderRoute ⟨[.lit (strLit "hello"), .field .str], []⟩
        [.vstr (strLit "alice")]) = .ok (2, [.vstr (strLit "alice")]) ∧
    routesParseStr myRouteTemplates
      (renderRoute ⟨[.lit (strLit "foo")], [⟨strLit "bar", .field .int⟩]⟩
        [.vint 42]) = .ok (3, [.vint 42]) :=
  ⟨plain_round_trip.1 _ (by decide) (by decide),
    plain_round_trip.2.2.2.1 (strLit "alice") (by decide),
    plain_round_trip.2.2.2.2.1 42 (by decide) (by decide)⟩

/-- C2: normalize_parse errors exactly when some decoded segment is empty;
the error payload is render_path_and_query of the non-empty segments with
the query unchanged; on success the segments with the dash unescape
applied and the untouched query are returned. -/
theorem normalize_parse_spec (path : List Str) (query : Option (List QP)) :
    ((∃ e, normalizeParse path query = .error e) ↔ [] ∈ path) ∧
    (∀ e, normalizeParse path query = .error e →
      e = render_path_and_query (path.filter (fun s => s ≠ [])) query) ∧
    ([] ∉ path →
      normalizeParse path query = .ok (path.map unescapeDashSeg, query)) := by
  unfold normalizeParse
  by_cases h : [] ∈ path
  · rw [if_pos h]
    refine ⟨⟨fun _ => h, fun _ => ⟨_, rfl⟩⟩, ?_, fun hn => absurd h hn⟩
    intro e he
    simp only [Except.error.injEq] at he
    exact he.symm
  · rw [if_neg h]
    exact ⟨⟨fun ⟨e, he⟩ => Except.noConfusion he, fun hc => absurd hc h⟩,
      fun e he => Except.noConfusion he, fun _ => rfl⟩

/-- C2 (witness). -/
theorem normalize_parse_spec_witness :
    (∃ e, normalizeParse [strLit "foo", []] none = .error e) ∧
    normalizeParse [strLit "a"] none = .ok ([strLit "a"], none) :=
  ⟨(normalize_parse_spec [strLit "foo", []] none).1.mpr (by decide),
    ((normalize_parse_spec [strLit "a"] none).2.2 (by decide)).trans rfl⟩

/-- C3: a rendered route whose path went through normalize_render_path is
already canonical: re-parsing it never yields NormalizationFailed, for
PlainRoute's parse_str and for every derived route set's parse_str. -/
theorem render_canonical (path : List Str) (query : Option (List QP)) :
    isNormFailed (plainParseStr
        (render_path_and_query (normalizeRenderPath path) query)) = false ∧
    ∀ ts, isNormFailed (routesParseStr ts
        (render_path_and_query (normalizeRenderPath path) query)) = false := by
  have hne : ∀ s ∈ normalizeRenderPath path, s ≠ [] := fun s hs => by
    unfold normalizeRenderPath at hs
    rw [List.mem_map] at hs
    obtain ⟨s₀, _, hs₀⟩ := hs
    rw [← hs₀]
    exact escape_ne_nil s₀
  have hpq := parsePathAndQuery_render (normalizeRenderPath path) query hne
  have hnp : [] ∉ (normalizeRenderPath path).map
      (fun s => decodeStr (pctEncode pathSet s)) := by
    intro hmem
    rw [List.mem_map] at hmem
    obtain ⟨s, hsmem, hs⟩ := hmem
    exact decode_ne_nil _ (pctEncode_ne_nil pathSet s (hne s hsmem)) hs
  constructor
  · unfold plainParseStr
    dsimp only
    rw [hpq]
    dsimp only
    unfold plainParse normalizeParse
    rw [if_neg hnp]
    rfl
  · intro ts
    unfold routesParseStr routesParse
    dsimp only
    rw [hpq]
    dsimp only
    unfold normalizeParse
    rw [if_neg hnp]
    dsimp only
    split
    · rfl
    · rfl

/-- C4: the dash escape is a bijection on all-dash segments: the render
side maps n dashes to n+1 dashes, the parse side (both the bare unescape
and normalize_parse itself) maps n+1 dashes back to n dashes, and the
composition is the identity. -/
theorem dash_escape_bijection (n : Nat) :
    escapeDashSeg (List.replicate n 0x2D) = List.replicate (n + 1) 0x2D ∧
    unescapeDashSeg (List.replicate (n + 1) 0x2D) = List.replicate n 0x2D ∧
    unescapeDashSeg (escapeDashSeg (List.replicate n 0x2D)) =
      List.replicate n 0x2D ∧
    normalizeParse [List.replicate (n + 1) 0x2D] none =
      .ok ([List.replicate n 0x2D], none) := by
  have hall : ∀ m : Nat, (List.replicate m (0x2D : Nat)).all (· = 0x2D) = true := by
    intro m
    rw [List.all_eq_true]
    intro x hx
    simp [List.eq_of_mem_replicate hx]
  have h1 : escapeDashSeg (List.replicate n 0x2D) = List.replicate (n + 1) 0x2D := by
    unfold escapeDashSeg
    rw [if_pos (hall n), ← List.replicate_succ']
  have h2 : unescapeDashSeg (List.replicate (n + 1) 0x2D) =
      List.replicate n 0x2D := by
    unfold unescapeDashSeg
    rw [if_pos (hall (n + 1)), List.replicate_succ', List.dropLast_concat]
  refine ⟨h1, h2, by rw [h1, h2], ?_⟩
  unfold normalizeParse
  rw [if_neg (by simp [List.replicate_succ])]
  simp [h2]

/-- C5: over any normalized input, the derived matcher returns index i
exactly when template i fully matches and every earlier template fails: in
particular when two templates both match, the first declared one wins. -/
theorem matcher_declaration_order (ts : List Template) (path : List Str)
    (query : Option (List QP)) (p : List Str) (q : Option (List QP))
    (h : normalizeParse path query = .ok (p, q)) (i : Nat) (v : List PieceVal) :
    routesParse ts path query = .ok (i, v) ↔
      ((∃ t, ts[i]? = some t ∧ matchTemplate t p (qmFromQuery q) = some v) ∧
        ∀ j, j < i → ∀ t, ts[j]? = some t →
          matchTemplate t p (qmFromQuery q) = none) := by
  unfold routesParse
  rw [h]
  dsimp only
  rw [← firstMatch_iff ts p (qmFromQuery q) i v]
  cases hfm : firstMatch ts p (qmFromQuery q) with
  | none => simp
  | some r =>
    obtain ⟨i2, v2⟩ := r
    simp

/-- C5 (witness): both templates match the path consisting of the single
segment x, and the matcher returns the first. -/
theorem matcher_declaration_order_witness :
    routesParse [⟨[.field .str], []⟩, ⟨[.lit (strLit "x")], []⟩]
      [strLit "x"] none = .ok (0, [.vstr (strLit "x")]) :=
  (matcher_declaration_order [⟨[.field .str], []⟩, ⟨[.lit (strLit "x")], []⟩]
      [strLit "x"] none [strLit "x"] none (by rfl) 0 [.vstr (strLit "x")]).mpr
    ⟨⟨⟨[.field .str], []⟩, rfl, by rfl⟩, fun j hj _ _ => absurd hj (Nat.not_lt_zero j)⟩

/-- C6: a template never matches a path with more segments than its
PathSpec list consumes: exact path length, not prefix matching. -/
theorem matcher_exact_path_length (t : Template) (path : List Str)
    (qm : QueryMap) (h : t.path.length < path.length) :
    matchTemplate t path qm = none := by
  unfold matchTemplate
  cases hms : matchSegs t.path path with
  | none => rfl
  | some pr =>
    obtain ⟨vs, rest⟩ := pr
    have hlen := matchSegs_length t.path path vs rest hms
    dsimp only
    rw [if_neg (by
      intro hr
      rw [hr] at hlen
      simp at hlen
      omega)]

/-- C6 (witness). -/
theorem matcher_exact_path_length_witness :
    matchTemplate ⟨[], []⟩ [strLit "a"] [] = none :=
  matcher_exact_path_length _ _ _ (by decide)

/-- C7: get_single on the built QueryMap returns some v exactly when the
ordered valued-occurrence list for the key is exactly the one element v,
no matter how many bare occurrences of the key exist. -/
theorem get_single_spec (qs : List QP) (k v : Str) :
    qmGetSingle (qmFromQuery (some qs)) k = some v ↔
      valuedOccurrences qs k = [v] := by
  rcases qmFromQuery_values qs k with ⟨hnone, hval⟩ | ⟨c, hsome⟩
  · unfold qmGetSingle
    rw [hnone, hval]
    simp
  · unfold qmGetSingle
    rw [hsome]
    dsimp only
    cases hV : valuedOccurrences qs k with
    | nil => simp
    | cons a tl =>
      cases tl with
      | nil => simp
      | cons b tl2 => simp

/-- C7 (witness): one valued and one bare occurrence of the same key, and
get_single still returns the single value. -/
theorem get_single_spec_witness :
    qmGetSingle (qmFromQuery (some
      [(strLit "a", some (strLit "1")), (strLit "a", none)])) (strLit "a") =
      some (strLit "1") :=
  (get_single_spec _ _ _).mpr (by decide)

/-- C8 (counterexample): parse_query_pair percent-decodes, so the claim
fails as stated: the key %41 contains neither an equals sign nor an
ampersand, yet parsing it yields the key A, not %41. -/
theorem query_pair_cex :
    (0x3D ∉ strLit "%41" ∧ 0x26 ∉ strLit "%41") ∧
    parseQueryPair (strLit "%41") = (strLit "A", none) ∧
    strLit "A" ≠ strLit "%41" := by
  refine ⟨by decide, rfl, by decide⟩

/-- C8 (amended): for every key k containing no equals sign and no
ampersand and which percent-decoding leaves unchanged, parsing k yields
the pair (k, no value), parsing k followed by an equals sign yields
(k, empty value), and the two results are never equal. -/
theorem query_pair_distinction (k : Str) (h₁ : 0x3D ∉ k) (h₂ : 0x26 ∉ k)
    (h₃ : decodeStr k = k) :
    parseQueryPair k = (k, none) ∧
    parseQueryPair (k ++ [0x3D]) = (k, some []) ∧
    parseQueryPair k ≠ parseQueryPair (k ++ [0x3D]) := by
  have hk : parseQueryPair k = (k, none) := by
    unfold parseQueryPair
    rw [firstIdx_not_mem 0x3D k h₁, h₃]
  have hke : parseQueryPair (k ++ [0x3D]) = (k, some []) := by
    unfold parseQueryPair
    rw [show k ++ [0x3D] = k ++ 0x3D :: [] from rfl]
    rw [firstIdx_append 0x3D k [] h₁]
    dsimp only
    rw [take_len_append, drop_len_succ_append, h₃]
    rfl
  refine ⟨hk, hke, ?_⟩
  rw [hk, hke]
  simp

/-- C8 (witness). -/
theorem query_pair_distinction_witness :
    parseQueryPair (strLit "ab") = (strLit "ab", none) ∧
    parseQueryPair (strLit "ab" ++ [0x3D]) = (strLit "ab", some []) :=
  ⟨(query_pair_distinction (strLit "ab") (by decide) (by decide) (by decide)).1,
    (query_pair_distinction (strLit "ab") (by decide) (by decide) (by decide)).2.1⟩

/-- C9: a field conversion failure is not a distinct error: the one
template fails, the matcher proceeds to the next in declaration order, an
all-failing route set yields NoMatch, and concretely the example route set
parses foo?bar=fortytwo to NoMatch (the int conversion of fortytwo being
the failing step). -/
theorem field_failure_no_hard_error :
    parsePiece .int (strLit "fortytwo") = none ∧
    (∀ (t : Template) (ts : List Template) (path : List Str) (qm : QueryMap),
      matchTemplate t path qm = none →
      firstMatch (t :: ts) path qm =
        (firstMatch ts path qm).map (fun pr => (pr.1 + 1, pr.2))) ∧
    (∀ (ts : List Template) (path : List Str) (query : Option (List QP))
      (p : List Str) (q : Option (List QP)),
      normalizeParse path query = .ok (p, q) →
      firstMatch ts p (qmFromQuery q) = none →
      routesParse ts path query = .error .NoMatch) ∧
    routesParseStr myRouteTemplates (strLit "foo?bar=fortytwo") =
      .error .NoMatch := by
  refine ⟨rfl, ?_, ?_, rfl⟩
  · intro t ts path qm h
    show (match matchTemplate t path qm with
      | some v => some (0, v)
      | none => (firstMatch ts path qm).map (fun p => (p.1 + 1, p.2))) =
        (firstMatch ts path qm).map (fun pr => (pr.1 + 1, pr.2))
    rw [h]
  · intro ts path query p q h hfm
    unfold routesParse
    rw [h]
    dsimp only
    rw [hfm]

/-- C9 (witness). -/
theorem field_failure_no_hard_error_witness :
    firstMatch [Template.mk [.lit (strLit "z")] []] [strLit "a"] [] =
      (firstMatch [] [strLit "a"] []).map (fun pr => (pr.1 + 1, pr.2)) ∧
    routesParse [] [strLit "a"] none = .error .NoMatch :=
  ⟨field_failure_no_hard_error.2.1 _ [] _ _ rfl,
    field_failure_no_hard_error.2.2.1 [] [strLit "a"] none [strLit "a"] none
      rfl rfl⟩

/-- C10: in parse_strs the query string is lexed only when it is empty; a
non-empty query string is entirely ignored (parse proceeds with no query
component), so its contents cannot affect the result, whereas the empty
query string yields a present-but-empty query. -/
theorem parse_strs_query_ignored (path q₁ q₂ : Str) :
    (q₁ ≠ [] → plainParseStrs path q₁ = plainParse (parse_path path) none) ∧
    (q₁ ≠ [] → q₂ ≠ [] → plainParseStrs path q₁ = plainParseStrs path q₂) ∧
    plainParseStrs path [] = plainParse (parse_path path) (some []) := by
  have hgen : ∀ q : Str, q ≠ [] →
      plainParseStrs path q = plainParse (parse_path path) none := by
    intro q hqne
    unfold plainParseStrs
    rw [if_neg hqne]
  refine ⟨hgen q₁, fun hne₁ hne₂ => (hgen q₁ hne₁).trans (hgen q₂ hne₂).symm, ?_⟩
  unfold plainParseStrs
  rw [if_pos rfl]
  rfl

/-- C10 (witness): the non-empty query string bar=1 is ignored and gives
the same parse as the unrelated non-empty query string z. -/
theorem parse_strs_query_ignored_witness :
    plainParseStrs (strLit "foo") (strLit "bar=1") =
      plainParse (parse_path (strLit "foo")) none ∧
    plainParseStrs (strLit "foo") (strLit "bar=1") =
      plainParseStrs (strLit "foo") (strLit "z") :=
  ⟨(parse_strs_query_ignored (strLit "foo") (strLit "bar=1") (strLit "z")).1
      (by decide),
    (parse_strs_query_ignored (strLit "foo") (strLit "bar=1") (strLit "z")).2.1
      (by decide) (by decide)⟩

/-! ## Sanity checks against the repository's own test suite -/

/-- lib.rs test double_slash. -/
theorem check_double_slash :
    plainParseStr (strLit "/foo//bar") =
      .error (.NormalizationFailed (strLit "/foo/bar")) := rfl

/-- lib.rs test trailing_slash. -/
theorem check_trailing_slash :
    plainParseStr (strLit "/foo/bar/") =
      .error (.NormalizationFailed (strLit "/foo/bar")) := rfl

/-- lib.rs test single_empty_string: render and round trip. -/
theorem check_single_empty_string :
    plainRender ⟨[strLit ""], none⟩ = strLit "/-" ∧
    plainParseStr (strLit "/-") = .ok ⟨[strLit ""], none⟩ := ⟨rfl, rfl⟩

/-- lib.rs test single_query_value_amp: the ampersand value is escaped. -/
theorem check_query_value_amp :
    plainRender ⟨[], some [([], some (strLit "&"))]⟩ = strLit "/?=%26" ∧
    plainParseStr (strLit "/?=%26") =
      .ok ⟨[], some [([], some (strLit "&"))]⟩ := ⟨rfl, rfl⟩

/-- lib.rs test looks_url_encoded: a literal percent sequence survives. -/
theorem check_looks_url_encoded :
    plainRender ⟨[], some [([], some (strLit "%00"))]⟩ = strLit "/?=%2500" ∧
    plainParseStr (strLit "/?=%2500") =
      .ok ⟨[], some [([], some (strLit "%00"))]⟩ := ⟨rfl, rfl⟩

/-- raw.rs doctest: the full percent-encoding example. -/
theorem check_encoding_doctest :
    render_path_and_query
        [strLit "hello", strLit "שלום", strLit "wor/ld"]
        (some [(strLit "he?llo", some (strLit "there#"))]) =
      strLit "/hello/%D7%A9%D7%9C%D7%95%D7%9D/wor%2Fld?he?llo=there%23" := rfl

/-- deriving.rs tests foo and parse_style on the example route set: index 3
is the Foo variant, index 1 is Style. -/
theorem check_example_routes :
    routesParseStr myRouteTemplates (strLit "foo?bar=42") =
      .ok (3, [.vint 42]) ∧
    routesParseStr myRouteTemplates (strLit "/style.css?foo") = .ok (1, []) ∧
    routesParseStr myRouteTemplates (strLit "/hello/alice/") =
      .error (.NormalizationFailed (strLit "/hello/alice")) ∧
    routesParseStr myRouteTemplates (strLit "//foo/bar//baz///bin/") =
      .error (.NormalizationFailed (strLit "/foo/bar/baz/bin")) ∧
    routesParseStr myRouteTemplates (strLit "/does/not/exist") =
      .error .NoMatch := ⟨rfl, rfl, rfl, rfl, rfl⟩
